import Mathlib

/-
  Verification of the search/evaluation core of the Chess_Pygame repository
  (src/Chess.py): the material evaluator `evaluate_board`, the alpha-beta
  minimax `minimax`, and the root move selector `get_best_move`.

  The external chess-rules library (python-chess) is treated as an opaque
  oracle, modelled by the `Oracle` structure: side to move, game-over test,
  legal move enumeration, move application, and per-kind piece counts.

  Scores in the Python code are integers mixed with `float('-inf')` and
  `float('inf')`; they are modelled by `XInt := WithBot (WithTop ℤ)`, where
  `⊥` plays the role of -infinity and `⊤` of +infinity.

  Three embeddings of the search are given, all translated line by line from
  src/Chess.py:
  * a value-level one (`minimax`, `get_best_move`) in which `board.push` is
    the oracle's transition function and `board.pop` is implicit in the
    functional style;
  * a stateful one (`minimaxS`, `get_best_moveS`) in which the mutable board
    with its undo stack is passed and returned explicitly, so that the
    push/pop restoration discipline of the code is itself a theorem;
  * a fuel-indexed one (`minimaxFuel`, `get_best_moveFuel`) in which the
    recursion is cut off by an explicit fuel counter, so that termination of
    the recursion within depth-many nested calls is itself a theorem.
-/

namespace Chess

/-- Scores with the two infinities used by src/Chess.py (`float('-inf')` is
`⊥`, `float('inf')` is `⊤`, finite scores are integers). -/
abbrev XInt : Type := WithBot (WithTop ℤ)

/-- Embeds a finite integer score into `XInt`. -/
def XInt.fin (z : ℤ) : XInt := ((z : WithTop ℤ) : XInt)

/-- The external chess-rules component (python-chess) as used by
src/Chess.py: `turn` is `board.turn` (`true` = White to move),
`is_game_over` is `board.is_game_over()`, `legal_moves` is
`list(board.legal_moves)`, `push` is the position reached by `board.push`,
and `pieces p t c` is `len(board.pieces(t, c))`. -/
structure Oracle (P M : Type) where
  turn : P → Bool
  is_game_over : P → Bool
  legal_moves : P → List M
  push : P → M → P
  pieces : P → Nat → Bool → Nat

variable {P M : Type}

/-- Translation of `evaluate_board` (src/Chess.py lines 32-36): fold over
`range(1, 7)` accumulating `len(board.pieces(t, WHITE)) -
len(board.pieces(t, BLACK))`; `chess.WHITE` is `true`. -/
def evaluate_board (o : Oracle P M) (board : P) : ℤ :=
  (List.range' 1 6).foldl
    (fun ev pt => ev + ((o.pieces board pt true : ℤ) - (o.pieces board pt false : ℤ))) 0

/-- The `for move in legal_moves` loop of `minimax` (src/Chess.py lines
47-60), with the recursive call abstracted as `f` (which receives the move
and the current alpha and beta, as line 49 passes them): update the running
best and alpha (maximizing) or beta (minimizing) with each child score, and
break returning the running best as soon as `beta <= alpha`. -/
def abLoop (f : M → XInt → XInt → XInt) (maxi : Bool) :
    XInt → XInt → XInt → List M → XInt
  | _alpha, _beta, best, [] => best
  | alpha, beta, best, mv :: ms =>
    let ev := f mv alpha beta
    if maxi then
      let best' := max best ev
      let alpha' := max alpha ev
      if beta ≤ alpha' then best' else abLoop f maxi alpha' beta best' ms
    else
      let best' := min best ev
      let beta' := min beta ev
      if beta' ≤ alpha then best' else abLoop f maxi alpha beta' best' ms

/-- Translation of `minimax` (src/Chess.py lines 39-62): at depth 0 or on a
game-over position return `evaluate_board`; otherwise run the alpha-beta
loop over the legal moves, starting the running best at -infinity
(maximizing) or +infinity (minimizing), recursing with `depth - 1` and the
flipped flag. -/
def minimax (o : Oracle P M) : Nat → P → XInt → XInt → Bool → XInt
  | 0, board, _alpha, _beta, _maxi => XInt.fin (evaluate_board o board)
  | d + 1, board, alpha, beta, maxi =>
    if o.is_game_over board then XInt.fin (evaluate_board o board)
    else
      abLoop (fun mv a b => minimax o d (o.push board mv) a b (!maxi)) maxi
        alpha beta (if maxi then ⊥ else ⊤) (o.legal_moves board)

/-- The move loop of an unpruned exhaustive minimax: fold max (maximizing)
or min (minimizing) over all child scores, with no alpha-beta window and no
early exit. -/
def npLoop (g : M → XInt) (maxi : Bool) : XInt → List M → XInt
  | best, [] => best
  | best, mv :: ms =>
    npLoop g maxi (if maxi then max best (g mv) else min best (g mv)) ms

/-- Unpruned exhaustive minimax over the same tree as `minimax`: same
terminal test, same `evaluate_board` at the leaves, same per-ply flag
flipping, but the alpha-beta cutoff removed. -/
def minimax_noprune (o : Oracle P M) : Nat → P → Bool → XInt
  | 0, board, _maxi => XInt.fin (evaluate_board o board)
  | d + 1, board, maxi =>
    if o.is_game_over board then XInt.fin (evaluate_board o board)
    else
      npLoop (fun mv => minimax_noprune o d (o.push board mv) (!maxi)) maxi
        (if maxi then ⊥ else ⊤) (o.legal_moves board)

/-- The `for move in board.legal_moves` loop of `get_best_move`
(src/Chess.py lines 69-76). Note that on line 71 the flag argument
`not board.turn` is evaluated after `board.push(move)`, so the turn read
there is the turn of the pushed (child) position, while the comparison on
line 74 runs after `board.pop()` and therefore reads the root's turn. -/
def gbmLoop (o : Oracle P M) (board : P) (depth : Nat) :
    Option M → XInt → List M → Option M
  | bm, _bv, [] => bm
  | bm, bv, mv :: ms =>
    let value := minimax o (depth - 1) (o.push board mv) ⊥ ⊤ (!(o.turn (o.push board mv)))
    if (o.turn board ∧ bv < value) ∨ (o.turn board = false ∧ value < bv) then
      gbmLoop o board depth (some mv) value ms
    else gbmLoop o board depth bm bv ms

/-- Translation of `get_best_move` (src/Chess.py lines 65-78): best value
starts at -infinity when White is to move and +infinity when Black is to
move; each legal root move is scored by `minimax` at `depth - 1` with a
fresh full window; the best move is replaced exactly when the score strictly
improves under the side-appropriate comparison. -/
def get_best_move (o : Oracle P M) (board : P) (depth : Nat) : Option M :=
  gbmLoop o board depth none (if o.turn board then ⊥ else ⊤) (o.legal_moves board)

/-- Variant of the root loop that follows the spec's words for the
maximizing flag: the flag passed to `search` is flipped relative to the
root's side to move (`false` for the children when White is to move at the
root). Everything else is identical to `gbmLoop`. -/
def gbmLoopSpecFlag (o : Oracle P M) (board : P) (depth : Nat) :
    Option M → XInt → List M → Option M
  | bm, _bv, [] => bm
  | bm, bv, mv :: ms =>
    let value := minimax o (depth - 1) (o.push board mv) ⊥ ⊤ (!(o.turn board))
    if (o.turn board ∧ bv < value) ∨ (o.turn board = false ∧ value < bv) then
      gbmLoopSpecFlag o board depth (some mv) value ms
    else gbmLoopSpecFlag o board depth bm bv ms

/-- Root selector with the spec-mandated flipped flag, for comparison with
the source's `get_best_move`. -/
def get_best_move_specFlag (o : Oracle P M) (board : P) (depth : Nat) : Option M :=
  gbmLoopSpecFlag o board depth none (if o.turn board then ⊥ else ⊤) (o.legal_moves board)

/-- A mutable board as python-chess keeps it: the current position together
with the stack of previous positions that `board.pop()` restores. -/
abbrev BState (P : Type) : Type := P × List P

/-- `board.push(move)`: move to the new position, saving the old one on the
undo stack. -/
def pushS (o : Oracle P M) (s : BState P) (mv : M) : BState P :=
  (o.push s.1 mv, s.1 :: s.2)

/-- `board.pop()`: restore the most recently saved position (identity on an
empty stack, which the search never produces). -/
def popS (s : BState P) : BState P :=
  match s with
  | (p, []) => (p, [])
  | (_, q :: rest) => (q, rest)

/-- Stateful version of the alpha-beta move loop: each iteration pushes the
move, runs the recursive scorer `f` on the pushed state, pops, and then
updates exactly as `abLoop` does — including handing the popped state back
on the early pruning return. -/
def abLoopS (o : Oracle P M) (f : BState P → XInt → XInt → XInt × BState P) (maxi : Bool) :
    XInt → XInt → XInt → BState P → List M → XInt × BState P
  | _alpha, _beta, best, s, [] => (best, s)
  | alpha, beta, best, s, mv :: ms =>
    let s1 := pushS o s mv
    let r := f s1 alpha beta
    let s3 := popS r.2
    if maxi then
      let best' := max best r.1
      let alpha' := max alpha r.1
      if beta ≤ alpha' then (best', s3) else abLoopS o f maxi alpha' beta best' s3 ms
    else
      let best' := min best r.1
      let beta' := min beta r.1
      if beta' ≤ alpha then (best', s3) else abLoopS o f maxi alpha beta' best' s3 ms

/-- Stateful translation of `minimax` (src/Chess.py lines 39-62): the
mutable board (current position plus undo stack) is threaded through and
returned alongside the score. -/
def minimaxS (o : Oracle P M) : Nat → BState P → XInt → XInt → Bool → XInt × BState P
  | 0, s, _alpha, _beta, _maxi => (XInt.fin (evaluate_board o s.1), s)
  | d + 1, s, alpha, beta, maxi =>
    if o.is_game_over s.1 then (XInt.fin (evaluate_board o s.1), s)
    else
      abLoopS o (fun s' a b => minimaxS o d s' a b (!maxi)) maxi
        alpha beta (if maxi then ⊥ else ⊤) s (o.legal_moves s.1)

/-- Stateful version of the root loop of `get_best_move` (src/Chess.py
lines 69-76), with the same read points for `board.turn` as the source: the
flag reads the turn of the pushed state, the comparison reads the turn of
the popped state. -/
def gbmLoopS (o : Oracle P M) (depth : Nat) :
    Option M → XInt → BState P → List M → Option M × BState P
  | bm, _bv, s, [] => (bm, s)
  | bm, bv, s, mv :: ms =>
    let s1 := pushS o s mv
    let r := minimaxS o (depth - 1) s1 ⊥ ⊤ (!(o.turn s1.1))
    let s3 := popS r.2
    if (o.turn s3.1 ∧ bv < r.1) ∨ (o.turn s3.1 = false ∧ r.1 < bv) then
      gbmLoopS o depth (some mv) r.1 s3 ms
    else gbmLoopS o depth bm bv s3 ms

/-- Stateful translation of `get_best_move`: returns the chosen move and the
final state of the board it was handed. -/
def get_best_moveS (o : Oracle P M) (s : BState P) (depth : Nat) : Option M × BState P :=
  gbmLoopS o depth none (if o.turn s.1 then ⊥ else ⊤) s (o.legal_moves s.1)

/-- Fuel-indexed alpha-beta move loop: identical to `abLoop` except that the
recursive scorer may report fuel exhaustion (`none`), which propagates. -/
def abLoopF (f : M → XInt → XInt → Option XInt) (maxi : Bool) :
    XInt → XInt → XInt → List M → Option XInt
  | _alpha, _beta, best, [] => some best
  | alpha, beta, best, mv :: ms =>
    match f mv alpha beta with
    | none => none
    | some ev =>
      if maxi then
        let best' := max best ev
        let alpha' := max alpha ev
        if beta ≤ alpha' then some best' else abLoopF f maxi alpha' beta best' ms
      else
        let best' := min best ev
        let beta' := min beta ev
        if beta' ≤ alpha then some best' else abLoopF f maxi alpha beta' best' ms

/-- Fuel-indexed translation of `minimax`: the recursion consumes one unit
of fuel per nested call and answers `none` when the fuel runs out, so a
`some` answer certifies that the recursion of src/Chess.py lines 39-62
terminates within the given nesting depth. The terminal test is the
source's `depth == 0 or board.is_game_over()`. -/
def minimaxFuel (o : Oracle P M) : Nat → Nat → P → XInt → XInt → Bool → Option XInt
  | 0, _depth, _board, _alpha, _beta, _maxi => none
  | fuel + 1, depth, board, alpha, beta, maxi =>
    if depth = 0 ∨ o.is_game_over board then some (XInt.fin (evaluate_board o board))
    else
      abLoopF (fun mv a b => minimaxFuel o fuel (depth - 1) (o.push board mv) a b (!maxi))
        maxi alpha beta (if maxi then ⊥ else ⊤) (o.legal_moves board)

/-- Fuel-indexed root loop of `get_best_move`. -/
def gbmLoopFuel (o : Oracle P M) (board : P) (fuel depth : Nat) :
    Option M → XInt → List M → Option (Option M)
  | bm, _bv, [] => some bm
  | bm, bv, mv :: ms =>
    match minimaxFuel o fuel (depth - 1) (o.push board mv) ⊥ ⊤ (!(o.turn (o.push board mv))) with
    | none => none
    | some value =>
      if (o.turn board ∧ bv < value) ∨ (o.turn board = false ∧ value < bv) then
        gbmLoopFuel o board fuel depth (some mv) value ms
      else gbmLoopFuel o board fuel depth bm bv ms

/-- Fuel-indexed translation of `get_best_move`. -/
def get_best_moveFuel (o : Oracle P M) (board : P) (fuel depth : Nat) : Option (Option M) :=
  gbmLoopFuel o board fuel depth none (if o.turn board then ⊥ else ⊤) (o.legal_moves board)

/-- A small concrete oracle used to evaluate the embedded code on explicit
inputs. Position 0 has White to move and two moves; positions 1 and 2 have
Black to move and two moves each; positions 3-6 are terminal leaves whose
material balances are 0, 10, 4 and 5. A position with no legal moves is
always game over, as in chess. -/
def OracleA : Oracle Nat Nat where
  turn p := decide (p = 0) || decide (3 ≤ p)
  is_game_over p := decide (3 ≤ p)
  legal_moves p := if p ≤ 2 then [1, 2] else []
  push p m := 2 * p + m
  pieces p t c :=
    if t = 1 && c then
      if p = 3 then 0 else if p = 4 then 10 else if p = 5 then 4 else if p = 6 then 5 else 0
    else 0

lemma XInt.fin_ne_bot (z : ℤ) : XInt.fin z ≠ ⊥ := WithBot.coe_ne_bot

lemma XInt.fin_ne_top (z : ℤ) : XInt.fin z ≠ ⊤ := by
  simp [XInt.fin]

lemma XInt.exists_fin (v : XInt) (h1 : v ≠ ⊥) (h2 : v ≠ ⊤) : ∃ z : ℤ, v = XInt.fin z := by
  induction v using WithBot.recBotCoe with
  | bot => exact absurd rfl h1
  | coe w =>
    induction w using WithTop.recTopCoe with
    | top => exact absurd rfl h2
    | coe z => exact ⟨z, rfl⟩

lemma max_ne_bot_left {x y : XInt} (hx : x ≠ ⊥) : max x y ≠ ⊥ := by
  intro h
  exact hx (le_bot_iff.mp (h ▸ le_max_left x y))

lemma min_ne_top_left {x y : XInt} (hx : x ≠ ⊤) : min x y ≠ ⊤ := by
  intro h
  exact hx (top_le_iff.mp (h ▸ min_le_left x y))

lemma min_ne_bot {x y : XInt} (hx : x ≠ ⊥) (hy : y ≠ ⊥) : min x y ≠ ⊥ := by
  rcases min_cases x y with ⟨h, _⟩ | ⟨h, _⟩ <;> rw [h] <;> assumption

lemma max_ne_top {x y : XInt} (hx : x ≠ ⊤) (hy : y ≠ ⊤) : max x y ≠ ⊤ := by
  rcases max_cases x y with ⟨h, _⟩ | ⟨h, _⟩ <;> rw [h] <;> assumption

lemma npLoop_true_max (g : M → XInt) (x : XInt) (l : List M) :
    ∀ y : XInt, npLoop g true (max x y) l = max x (npLoop g true y l) := by
  induction l with
  | nil => intro y; rfl
  | cons mv ms ih =>
    intro y
    show npLoop g true (max (max x y) (g mv)) ms = max x (npLoop g true (max y (g mv)) ms)
    rw [max_assoc]
    exact ih (max y (g mv))

lemma npLoop_false_min (g : M → XInt) (x : XInt) (l : List M) :
    ∀ y : XInt, npLoop g false (min x y) l = min x (npLoop g false y l) := by
  induction l with
  | nil => intro y; rfl
  | cons mv ms ih =>
    intro y
    show npLoop g false (min (min x y) (g mv)) ms = min x (npLoop g false (min y (g mv)) ms)
    rw [min_assoc]
    exact ih (min y (g mv))

lemma le_npLoop_true (g : M → XInt) (x : XInt) (l : List M) : x ≤ npLoop g true x l := by
  have h := npLoop_true_max g x l ⊥
  rw [max_eq_left bot_le] at h
  rw [h]
  exact le_max_left _ _

lemma npLoop_false_le (g : M → XInt) (x : XInt) (l : List M) : npLoop g false x l ≤ x := by
  have h := npLoop_false_min g x l ⊤
  rw [min_eq_left le_top] at h
  rw [h]
  exact min_le_left _ _

lemma abLoop_true_ge_best (f : M → XInt → XInt → XInt) (l : List M) :
    ∀ (alpha beta best : XInt), best ≤ abLoop f true alpha beta best l := by
  induction l with
  | nil => intro alpha beta best; exact le_refl best
  | cons mv ms ih =>
    intro alpha beta best
    show best ≤
      (if beta ≤ max alpha (f mv alpha beta) then max best (f mv alpha beta)
       else abLoop f true (max alpha (f mv alpha beta)) beta (max best (f mv alpha beta)) ms)
    by_cases hc : beta ≤ max alpha (f mv alpha beta)
    · rw [if_pos hc]; exact le_max_left _ _
    · rw [if_neg hc]
      exact le_trans (le_max_left _ _) (ih _ _ _)

lemma abLoop_false_le_best (f : M → XInt → XInt → XInt) (l : List M) :
    ∀ (alpha beta best : XInt), abLoop f false alpha beta best l ≤ best := by
  induction l with
  | nil => intro alpha beta best; exact le_refl best
  | cons mv ms ih =>
    intro alpha beta best
    show (if min beta (f mv alpha beta) ≤ alpha then min best (f mv alpha beta)
       else abLoop f false alpha (min beta (f mv alpha beta)) (min best (f mv alpha beta)) ms) ≤ best
    by_cases hc : min beta (f mv alpha beta) ≤ alpha
    · rw [if_pos hc]; exact min_le_left _ _
    · rw [if_neg hc]
      exact le_trans (ih _ _ _) (min_le_left _ _)

lemma abLoop_true_correct (f : M → XInt → XInt → XInt) (g : M → XInt)
    (hfg : ∀ mv a b, a < b →
      (f mv a b ≤ a → g mv ≤ f mv a b) ∧
      (b ≤ f mv a b → f mv a b ≤ g mv) ∧
      (a < f mv a b → f mv a b < b → f mv a b = g mv)) :
    ∀ (l : List M) (a b best : XInt), best ≤ a → a < b →
      (abLoop f true a b best l ≤ a → npLoop g true best l ≤ abLoop f true a b best l) ∧
      (b ≤ abLoop f true a b best l → abLoop f true a b best l ≤ npLoop g true best l) ∧
      (a < abLoop f true a b best l → abLoop f true a b best l < b →
        abLoop f true a b best l = npLoop g true best l) := by
  intro l
  induction l with
  | nil =>
    intro a b best hba hab
    exact ⟨fun _ => le_refl _, fun _ => le_refl _, fun _ _ => rfl⟩
  | cons mv ms ih =>
    intro a b best hba hab
    have hUnf : abLoop f true a b best (mv :: ms) =
        (if b ≤ max a (f mv a b) then max best (f mv a b)
         else abLoop f true (max a (f mv a b)) b (max best (f mv a b)) ms) := rfl
    have hUnfN : npLoop g true best (mv :: ms) = npLoop g true (max best (g mv)) ms := rfl
    rw [hUnf, hUnfN]
    set rc := f mv a b with hrc
    set vc := g mv with hvc
    by_cases hcut : b ≤ max a rc
    · rw [if_pos hcut]
      have hbrc : b ≤ rc := by
        rcases le_max_iff.mp hcut with h | h
        · exact absurd h (not_le.mpr hab)
        · exact h
      have hbestrc : best ≤ rc := le_trans hba (le_trans hab.le hbrc)
      rw [max_eq_right hbestrc]
      refine ⟨?_, ?_, ?_⟩
      · intro h
        exact absurd h (not_le.mpr (lt_of_lt_of_le hab hbrc))
      · intro _
        have hrcvc : rc ≤ vc := (hfg mv a b hab).2.1 hbrc
        exact le_trans hrcvc (le_trans (le_max_right best vc) (le_npLoop_true g _ ms))
      · intro _ hlt
        exact absurd hlt (not_lt.mpr hbrc)
    · rw [if_neg hcut]
      have ha'b : max a rc < b := not_le.mp hcut
      have hbest' : max best rc ≤ max a rc := max_le_max hba (le_refl rc)
      have I := ih (max a rc) b (max best rc) hbest' ha'b
      by_cases hrca : rc ≤ a
      · -- child failed low: its true value is bounded by its result
        have hvcrc : vc ≤ rc := (hfg mv a b hab).1 hrca
        have ha' : max a rc = a := max_eq_left hrca
        rw [ha'] at I ⊢
        have hw2 : npLoop g true (max best rc) ms = max (max best rc) (npLoop g true ⊥ ms) := by
          have h := npLoop_true_max g (max best rc) ms ⊥
          rwa [max_eq_left bot_le] at h
        have hw : npLoop g true (max best vc) ms = max (max best vc) (npLoop g true ⊥ ms) := by
          have h := npLoop_true_max g (max best vc) ms ⊥
          rwa [max_eq_left bot_le] at h
        set S := npLoop g true ⊥ ms with hS
        set r := abLoop f true a b (max best rc) ms with hr
        have hbb : max best rc ≤ a := by rw [← ha']; exact hbest'
        refine ⟨?_, ?_, ?_⟩
        · intro h
          have hle : npLoop g true (max best vc) ms ≤ npLoop g true (max best rc) ms := by
            rw [hw, hw2]
            exact max_le_max (max_le_max (le_refl best) hvcrc) (le_refl S)
          exact le_trans hle (I.1 h)
        · intro h
          have h2 := I.2.1 h
          rw [hw2] at h2
          have hrS : r ≤ S := by
            rcases le_max_iff.mp h2 with h3 | h3
            · exact absurd (le_trans (le_trans h h3) hbb) (not_le.mpr hab)
            · exact h3
          rw [hw]
          exact le_trans hrS (le_max_right _ _)
        · intro h1 h2
          have heq := I.2.2 h1 h2
          rw [hw2] at heq
          have hbr : max best rc < r := lt_of_le_of_lt hbb h1
          have hSr : S = r := by
            rcases max_cases (max best rc) S with ⟨hm1, _⟩ | ⟨hm1, _⟩
            · rw [hm1] at heq
              exact absurd heq.symm (ne_of_lt hbr)
            · rw [hm1] at heq
              exact heq.symm
          rw [hw]
          have hvS : max best vc ≤ S := by
            rw [hSr]
            exact le_of_lt (lt_of_le_of_lt (max_le_max (le_refl best) hvcrc) hbr)
          rw [max_eq_right hvS, hSr]
      · -- child inside the window: its result is exact
        have harc : a < rc := not_le.mp hrca
        have ha' : max a rc = rc := max_eq_right harc.le
        have hrcb : rc < b := by rw [← ha']; exact ha'b
        have heqv : rc = vc := (hfg mv a b hab).2.2 harc hrcb
        have hbe : max best vc = max best rc := by rw [← heqv]
        rw [hbe]
        rw [ha'] at I ⊢
        set r := abLoop f true rc b (max best rc) ms with hr
        have hbestr : max best rc ≤ r := abLoop_true_ge_best f ms rc b (max best rc)
        refine ⟨?_, ?_, ?_⟩
        · intro h
          have hrca2 : rc ≤ a := le_trans (le_max_right best rc) (le_trans hbestr h)
          exact absurd harc (not_lt.mpr hrca2)
        · intro h
          exact I.2.1 h
        · intro h1 h2
          by_cases hra' : rc < r
          · exact I.2.2 hra' h2
          · have hrrc : r ≤ rc := not_lt.mp hra'
            have hb'rc : rc ≤ max best rc := le_max_right _ _
            have hW := I.1 hrrc
            have hW2 : max best rc ≤ npLoop g true (max best rc) ms := le_npLoop_true g _ ms
            have hrb' : r ≤ max best rc := le_antisymm hrrc (le_trans hb'rc hbestr) ▸ hb'rc
            exact le_antisymm (le_trans hrb' hW2) hW

lemma abLoop_false_correct (f : M → XInt → XInt → XInt) (g : M → XInt)
    (hfg : ∀ mv a b, a < b →
      (f mv a b ≤ a → g mv ≤ f mv a b) ∧
      (b ≤ f mv a b → f mv a b ≤ g mv) ∧
      (a < f mv a b → f mv a b < b → f mv a b = g mv)) :
    ∀ (l : List M) (a b best : XInt), b ≤ best → a < b →
      (abLoop f false a b best l ≤ a → npLoop g false best l ≤ abLoop f false a b best l) ∧
      (b ≤ abLoop f false a b best l → abLoop f false a b best l ≤ npLoop g false best l) ∧
      (a < abLoop f false a b best l → abLoop f false a b best l < b →
        abLoop f false a b best l = npLoop g false best l) := by
  intro l
  induction l with
  | nil =>
    intro a b best hbb hab
    exact ⟨fun _ => le_refl _, fun _ => le_refl _, fun _ _ => rfl⟩
  | cons mv ms ih =>
    intro a b best hbb hab
    have hUnf : abLoop f false a b best (mv :: ms) =
        (if min b (f mv a b) ≤ a then min best (f mv a b)
         else abLoop f false a (min b (f mv a b)) (min best (f mv a b)) ms) := rfl
    have hUnfN : npLoop g false best (mv :: ms) = npLoop g false (min best (g mv)) ms := rfl
    rw [hUnf, hUnfN]
    set rc := f mv a b with hrc
    set vc := g mv with hvc
    by_cases hcut : min b rc ≤ a
    · rw [if_pos hcut]
      have hrca : rc ≤ a := by
        rcases min_le_iff.mp hcut with h | h
        · exact absurd h (not_le.mpr hab)
        · exact h
      have hrcbest : rc ≤ best := le_trans hrca (le_trans hab.le hbb)
      rw [min_eq_right hrcbest]
      refine ⟨?_, ?_, ?_⟩
      · intro _
        have hvcrc : vc ≤ rc := (hfg mv a b hab).1 hrca
        exact le_trans (npLoop_false_le g _ ms) (le_trans (min_le_right best vc) hvcrc)
      · intro h
        exact absurd h (not_le.mpr (lt_of_le_of_lt hrca hab))
      · intro h1 _
        exact absurd h1 (not_lt.mpr hrca)
    · rw [if_neg hcut]
      have hab' : a < min b rc := not_le.mp hcut
      have hbest' : min b rc ≤ min best rc := min_le_min hbb (le_refl rc)
      have I := ih a (min b rc) (min best rc) hbest' hab'
      by_cases hbrc : b ≤ rc
      · -- child failed high: its true value dominates its result
        have hrcvc : rc ≤ vc := (hfg mv a b hab).2.1 hbrc
        have hb' : min b rc = b := min_eq_left hbrc
        rw [hb'] at I ⊢
        have hw2 : npLoop g false (min best rc) ms = min (min best rc) (npLoop g false ⊤ ms) := by
          have h := npLoop_false_min g (min best rc) ms ⊤
          rwa [min_eq_left le_top] at h
        have hw : npLoop g false (min best vc) ms = min (min best vc) (npLoop g false ⊤ ms) := by
          have h := npLoop_false_min g (min best vc) ms ⊤
          rwa [min_eq_left le_top] at h
        set S := npLoop g false ⊤ ms with hS
        set r := abLoop f false a b (min best rc) ms with hr
        have hbb2 : b ≤ min best rc := le_min hbb hbrc
        have hminle : min best rc ≤ min best vc := min_le_min (le_refl best) hrcvc
        refine ⟨?_, ?_, ?_⟩
        · intro h
          have h2 := I.1 h
          rw [hw2] at h2
          have hrS : S ≤ r := by
            rcases min_le_iff.mp h2 with h3 | h3
            · exact absurd (le_trans hbb2 (le_trans h3 h)) (not_le.mpr hab)
            · exact h3
          rw [hw]
          exact le_trans (min_le_right _ _) hrS
        · intro h
          have h2 := I.2.1 h
          rw [hw2] at h2
          rw [hw]
          exact le_min (le_trans (le_trans h2 (min_le_left _ _)) hminle)
            (le_trans h2 (min_le_right _ _))
        · intro h1 h2
          have heq := I.2.2 h1 h2
          rw [hw2] at heq
          have hbr : r < min best rc := lt_of_lt_of_le h2 hbb2
          have hSr : S = r := by
            rcases min_cases (min best rc) S with ⟨hm1, _⟩ | ⟨hm1, _⟩
            · rw [hm1] at heq
              exact absurd heq.symm (ne_of_gt hbr)
            · rw [hm1] at heq
              exact heq.symm
          rw [hw]
          have hvS : S ≤ min best vc := by
            rw [hSr]
            exact le_of_lt (lt_of_lt_of_le hbr hminle)
          rw [min_eq_right hvS, hSr]
      · -- child inside the window: its result is exact
        have harc2 : rc < b := not_le.mp hbrc
        have hb' : min b rc = rc := min_eq_right harc2.le
        rw [hb'] at I hab' ⊢
        have heqv : rc = vc := (hfg mv a b hab).2.2 hab' harc2
        have hbe : min best vc = min best rc := by rw [← heqv]
        rw [hbe]
        set r := abLoop f false a rc (min best rc) ms with hr
        have hbestr : r ≤ min best rc := abLoop_false_le_best f ms a rc (min best rc)
        refine ⟨?_, ?_, ?_⟩
        · intro h
          exact I.1 h
        · intro h
          have : b ≤ rc := le_trans h (le_trans hbestr (min_le_right best rc))
          exact absurd this hbrc
        · intro h1 h2
          by_cases hrb' : r < rc
          · exact I.2.2 h1 hrb'
          · have hrcr : rc ≤ r := not_lt.mp hrb'
            have hr_eq : r = rc := le_antisymm (le_trans hbestr (min_le_right best rc)) hrcr
            have hnp : npLoop g false (min best rc) ms ≤ r := by
              rw [hr_eq]
              exact le_trans (npLoop_false_le g _ ms) (min_le_right best rc)
            exact le_antisymm (I.2.1 hrcr) hnp

lemma minimax_tri (o : Oracle P M) :
    ∀ (d : Nat) (pos : P) (a b : XInt) (maxi : Bool), a < b →
      (minimax o d pos a b maxi ≤ a →
        minimax_noprune o d pos maxi ≤ minimax o d pos a b maxi) ∧
      (b ≤ minimax o d pos a b maxi →
        minimax o d pos a b maxi ≤ minimax_noprune o d pos maxi) ∧
      (a < minimax o d pos a b maxi → minimax o d pos a b maxi < b →
        minimax o d pos a b maxi = minimax_noprune o d pos maxi) := by
  intro d
  induction d with
  | zero =>
    intro pos a b maxi hab
    exact ⟨fun _ => le_refl _, fun _ => le_refl _, fun _ _ => rfl⟩
  | succ d ih =>
    intro pos a b maxi hab
    by_cases hover : o.is_game_over pos = true
    · have h1 : minimax o (d + 1) pos a b maxi = XInt.fin (evaluate_board o pos) := by
        show (if o.is_game_over pos then _ else _) = _
        rw [if_pos hover]
      have h2 : minimax_noprune o (d + 1) pos maxi = XInt.fin (evaluate_board o pos) := by
        show (if o.is_game_over pos then _ else _) = _
        rw [if_pos hover]
      rw [h1, h2]
      exact ⟨fun _ => le_refl _, fun _ => le_refl _, fun _ _ => rfl⟩
    · have h1 : minimax o (d + 1) pos a b maxi =
          abLoop (fun mv a' b' => minimax o d (o.push pos mv) a' b' (!maxi)) maxi
            a b (if maxi then ⊥ else ⊤) (o.legal_moves pos) := by
        show (if o.is_game_over pos then _ else _) = _
        rw [if_neg hover]
      have h2 : minimax_noprune o (d + 1) pos maxi =
          npLoop (fun mv => minimax_noprune o d (o.push pos mv) (!maxi)) maxi
            (if maxi then ⊥ else ⊤) (o.legal_moves pos) := by
        show (if o.is_game_over pos then _ else _) = _
        rw [if_neg hover]
      rw [h1, h2]
      cases maxi
      · exact abLoop_false_correct _ _
          (fun mv a' b' hab' => ih (o.push pos mv) a' b' true hab')
          (o.legal_moves pos) a b ⊤ le_top hab
      · exact abLoop_true_correct _ _
          (fun mv a' b' hab' => ih (o.push pos mv) a' b' false hab')
          (o.legal_moves pos) a b ⊥ bot_le hab

lemma minimax_full_window (o : Oracle P M) (d : Nat) (pos : P) (maxi : Bool) :
    minimax o d pos ⊥ ⊤ maxi = minimax_noprune o d pos maxi := by
  have h := minimax_tri o d pos ⊥ ⊤ maxi (by decide)
  by_cases h1 : minimax o d pos ⊥ ⊤ maxi ≤ ⊥
  · have hr : minimax o d pos ⊥ ⊤ maxi = ⊥ := le_bot_iff.mp h1
    have hv : minimax_noprune o d pos maxi ≤ ⊥ := hr ▸ h.1 h1
    rw [hr, le_bot_iff.mp hv]
  · by_cases h2 : ⊤ ≤ minimax o d pos ⊥ ⊤ maxi
    · have hr : minimax o d pos ⊥ ⊤ maxi = ⊤ := top_le_iff.mp h2
      have hv : ⊤ ≤ minimax_noprune o d pos maxi := hr ▸ h.2.1 h2
      rw [hr, (top_le_iff.mp hv)]
    · exact h.2.2 (bot_lt_iff_ne_bot.mpr (fun hh => h1 (le_of_eq hh)))
        (lt_top_iff_ne_top.mpr (fun hh => h2 (ge_of_eq hh)))

lemma popS_pushS (o : Oracle P M) (s : BState P) (mv : M) : popS (pushS o s mv) = s := by
  cases s with
  | mk p st => rfl

lemma abLoopS_eq (o : Oracle P M) (f : BState P → XInt → XInt → XInt × BState P)
    (g : P → XInt → XInt → XInt)
    (hfg : ∀ s a b, f s a b = (g s.1 a b, s)) (maxi : Bool) :
    ∀ (l : List M) (a b best : XInt) (s : BState P),
      abLoopS o f maxi a b best s l =
        (abLoop (fun mv a' b' => g (o.push s.1 mv) a' b') maxi a b best l, s) := by
  intro l
  induction l with
  | nil => intro a b best s; rfl
  | cons mv ms ih =>
    intro a b best s
    have hr : f (pushS o s mv) a b = (g (o.push s.1 mv) a b, pushS o s mv) :=
      hfg (pushS o s mv) a b
    simp only [abLoopS, abLoop, hr, popS_pushS]
    cases maxi
    · simp only [if_neg Bool.false_ne_true]
      by_cases hc : min b (g (o.push s.1 mv) a b) ≤ a
      · simp only [if_pos hc]
      · simp only [if_neg hc]
        exact ih a (min b (g (o.push s.1 mv) a b)) (min best (g (o.push s.1 mv) a b)) s
    · simp only [eq_self_iff_true, if_true]
      by_cases hc : b ≤ max a (g (o.push s.1 mv) a b)
      · simp only [if_pos hc]
      · simp only [if_neg hc]
        exact ih (max a (g (o.push s.1 mv) a b)) b (max best (g (o.push s.1 mv) a b)) s

lemma minimaxS_eq (o : Oracle P M) :
    ∀ (d : Nat) (s : BState P) (a b : XInt) (maxi : Bool),
      minimaxS o d s a b maxi = (minimax o d s.1 a b maxi, s) := by
  intro d
  induction d with
  | zero => intro s a b maxi; rfl
  | succ d ih =>
    intro s a b maxi
    by_cases hover : o.is_game_over s.1 = true
    · have h1 : minimax o (d + 1) s.1 a b maxi = XInt.fin (evaluate_board o s.1) := by
        show (if o.is_game_over s.1 then _ else _) = _
        rw [if_pos hover]
      show (if o.is_game_over s.1 then _ else _) = _
      rw [if_pos hover, h1]
    · have h1 : minimax o (d + 1) s.1 a b maxi =
          abLoop (fun mv a' b' => minimax o d (o.push s.1 mv) a' b' (!maxi)) maxi
            a b (if maxi then ⊥ else ⊤) (o.legal_moves s.1) := by
        show (if o.is_game_over s.1 then _ else _) = _
        rw [if_neg hover]
      have h2 : minimaxS o (d + 1) s a b maxi =
          abLoopS o (fun s' a' b' => minimaxS o d s' a' b' (!maxi)) maxi
            a b (if maxi then ⊥ else ⊤) s (o.legal_moves s.1) := by
        show (if o.is_game_over s.1 then _ else _) = _
        rw [if_neg hover]
      rw [h1, h2]
      exact abLoopS_eq o _ (fun p a' b' => minimax o d p a' b' (!maxi))
        (fun s' a' b' => ih s' a' b' (!maxi)) maxi (o.legal_moves s.1) a b _ s

lemma gbmLoopS_eq (o : Oracle P M) (depth : Nat) :
    ∀ (l : List M) (bm : Option M) (bv : XInt) (s : BState P),
      gbmLoopS o depth bm bv s l = (gbmLoop o s.1 depth bm bv l, s) := by
  intro l
  induction l with
  | nil => intro bm bv s; rfl
  | cons mv ms ih =>
    intro bm bv s
    have hr : minimaxS o (depth - 1) (pushS o s mv) ⊥ ⊤ (!(o.turn (pushS o s mv).1)) =
        (minimax o (depth - 1) (o.push s.1 mv) ⊥ ⊤ (!(o.turn (o.push s.1 mv))), pushS o s mv) :=
      minimaxS_eq o (depth - 1) (pushS o s mv) ⊥ ⊤ _
    simp only [gbmLoopS, gbmLoop, hr, popS_pushS]
    by_cases hc : (o.turn s.1 ∧ bv < minimax o (depth - 1) (o.push s.1 mv) ⊥ ⊤
          (!(o.turn (o.push s.1 mv)))) ∨
        (o.turn s.1 = false ∧
          minimax o (depth - 1) (o.push s.1 mv) ⊥ ⊤ (!(o.turn (o.push s.1 mv))) < bv)
    · simp only [if_pos hc]
      exact ih _ _ s
    · simp only [if_neg hc]
      exact ih bm bv s

lemma get_best_moveS_eq (o : Oracle P M) (s : BState P) (depth : Nat) :
    get_best_moveS o s depth = (get_best_move o s.1 depth, s) :=
  gbmLoopS_eq o depth (o.legal_moves s.1) none _ s

lemma abLoopF_eq (fF : M → XInt → XInt → Option XInt) (fP : M → XInt → XInt → XInt)
    (hf : ∀ mv a b, fF mv a b = some (fP mv a b)) (maxi : Bool) :
    ∀ (l : List M) (a b best : XInt),
      abLoopF fF maxi a b best l = some (abLoop fP maxi a b best l) := by
  intro l
  induction l with
  | nil => intro a b best; rfl
  | cons mv ms ih =>
    intro a b best
    simp only [abLoopF, abLoop, hf]
    cases maxi
    · simp only [if_neg Bool.false_ne_true]
      by_cases hc : min b (fP mv a b) ≤ a
      · simp only [if_pos hc]
      · simp only [if_neg hc]
        exact ih a (min b (fP mv a b)) (min best (fP mv a b))
    · simp only [eq_self_iff_true, if_true]
      by_cases hc : b ≤ max a (fP mv a b)
      · simp only [if_pos hc]
      · simp only [if_neg hc]
        exact ih (max a (fP mv a b)) b (max best (fP mv a b))

lemma minimaxFuel_eq (o : Oracle P M) :
    ∀ (fuel d : Nat), d < fuel → ∀ (pos : P) (a b : XInt) (maxi : Bool),
      minimaxFuel o fuel d pos a b maxi = some (minimax o d pos a b maxi) := by
  intro fuel
  induction fuel with
  | zero => intro d hd pos a b maxi; exact absurd hd (Nat.not_lt_zero d)
  | succ fuel ih =>
    intro d hd pos a b maxi
    cases d with
    | zero =>
      show (if (0 : Nat) = 0 ∨ o.is_game_over pos then _ else _) = _
      rw [if_pos (Or.inl rfl)]
      rfl
    | succ d' =>
      by_cases hover : o.is_game_over pos = true
      · have h1 : minimax o (d' + 1) pos a b maxi = XInt.fin (evaluate_board o pos) := by
          show (if o.is_game_over pos then _ else _) = _
          rw [if_pos hover]
        show (if (d' + 1 : Nat) = 0 ∨ o.is_game_over pos then _ else _) = _
        rw [if_pos (Or.inr hover), h1]
      · have hcond : ¬((d' + 1 : Nat) = 0 ∨ o.is_game_over pos = true) := by
          rintro (h | h)
          · exact Nat.succ_ne_zero d' h
          · exact hover h
        have h1 : minimax o (d' + 1) pos a b maxi =
            abLoop (fun mv a' b' => minimax o d' (o.push pos mv) a' b' (!maxi)) maxi
              a b (if maxi then ⊥ else ⊤) (o.legal_moves pos) := by
          show (if o.is_game_over pos then _ else _) = _
          rw [if_neg hover]
        show (if (d' + 1 : Nat) = 0 ∨ o.is_game_over pos then _ else _) = _
        rw [if_neg hcond, h1]
        exact abLoopF_eq _ _
          (fun mv a' b' => ih d' (Nat.lt_of_succ_lt_succ hd) (o.push pos mv) a' b' (!maxi))
          maxi (o.legal_moves pos) a b _

lemma gbmLoopFuel_eq (o : Oracle P M) (board : P) (fuel depth : Nat)
    (hd : depth - 1 < fuel) :
    ∀ (l : List M) (bm : Option M) (bv : XInt),
      gbmLoopFuel o board fuel depth bm bv l = some (gbmLoop o board depth bm bv l) := by
  intro l
  induction l with
  | nil => intro bm bv; rfl
  | cons mv ms ih =>
    intro bm bv
    have hr := minimaxFuel_eq o fuel (depth - 1) hd (o.push board mv) ⊥ ⊤
      (!(o.turn (o.push board mv)))
    simp only [gbmLoopFuel, gbmLoop, hr]
    by_cases hc : (o.turn board ∧ bv < minimax o (depth - 1) (o.push board mv) ⊥ ⊤
          (!(o.turn (o.push board mv)))) ∨
        (o.turn board = false ∧
          minimax o (depth - 1) (o.push board mv) ⊥ ⊤ (!(o.turn (o.push board mv))) < bv)
    · simp only [if_pos hc]
      exact ih _ _
    · simp only [if_neg hc]
      exact ih bm bv

lemma get_best_moveFuel_eq (o : Oracle P M) (board : P) (fuel depth : Nat)
    (hd : depth - 1 < fuel) :
    get_best_moveFuel o board fuel depth = some (get_best_move o board depth) :=
  gbmLoopFuel_eq o board fuel depth hd (o.legal_moves board) none _

lemma max_ne_bot_right {x y : XInt} (hy : y ≠ ⊥) : max x y ≠ ⊥ := by
  intro h
  exact hy (le_bot_iff.mp (h ▸ le_max_right x y))

lemma min_ne_top_right {x y : XInt} (hy : y ≠ ⊤) : min x y ≠ ⊤ := by
  intro h
  exact hy (top_le_iff.mp (h ▸ min_le_right x y))

lemma abLoop_true_ne (f : M → XInt → XInt → XInt)
    (hf : ∀ mv a b, f mv a b ≠ ⊥ ∧ f mv a b ≠ ⊤) :
    ∀ (ms : List M) (mv : M) (a b best : XInt), best ≠ ⊤ →
      abLoop f true a b best (mv :: ms) ≠ ⊥ ∧ abLoop f true a b best (mv :: ms) ≠ ⊤ := by
  intro ms
  induction ms with
  | nil =>
    intro mv a b best hbest
    have h1 : max best (f mv a b) ≠ ⊥ := max_ne_bot_right (hf mv a b).1
    have h2 : max best (f mv a b) ≠ ⊤ := max_ne_top hbest (hf mv a b).2
    show (if b ≤ max a (f mv a b) then max best (f mv a b)
        else abLoop f true (max a (f mv a b)) b (max best (f mv a b)) []) ≠ ⊥ ∧
      (if b ≤ max a (f mv a b) then max best (f mv a b)
        else abLoop f true (max a (f mv a b)) b (max best (f mv a b)) []) ≠ ⊤
    by_cases hc : b ≤ max a (f mv a b)
    · rw [if_pos hc]; exact ⟨h1, h2⟩
    · rw [if_neg hc]; exact ⟨h1, h2⟩
  | cons mv2 ms2 ih =>
    intro mv a b best hbest
    have h1 : max best (f mv a b) ≠ ⊥ := max_ne_bot_right (hf mv a b).1
    have h2 : max best (f mv a b) ≠ ⊤ := max_ne_top hbest (hf mv a b).2
    show (if b ≤ max a (f mv a b) then max best (f mv a b)
        else abLoop f true (max a (f mv a b)) b (max best (f mv a b)) (mv2 :: ms2)) ≠ ⊥ ∧
      (if b ≤ max a (f mv a b) then max best (f mv a b)
        else abLoop f true (max a (f mv a b)) b (max best (f mv a b)) (mv2 :: ms2)) ≠ ⊤
    by_cases hc : b ≤ max a (f mv a b)
    · rw [if_pos hc]; exact ⟨h1, h2⟩
    · rw [if_neg hc]
      exact ih mv2 (max a (f mv a b)) b (max best (f mv a b)) h2

lemma abLoop_false_ne (f : M → XInt → XInt → XInt)
    (hf : ∀ mv a b, f mv a b ≠ ⊥ ∧ f mv a b ≠ ⊤) :
    ∀ (ms : List M) (mv : M) (a b best : XInt), best ≠ ⊥ →
      abLoop f false a b best (mv :: ms) ≠ ⊥ ∧ abLoop f false a b best (mv :: ms) ≠ ⊤ := by
  intro ms
  induction ms with
  | nil =>
    intro mv a b best hbest
    have h1 : min best (f mv a b) ≠ ⊥ := min_ne_bot hbest (hf mv a b).1
    have h2 : min best (f mv a b) ≠ ⊤ := min_ne_top_right (hf mv a b).2
    show (if min b (f mv a b) ≤ a then min best (f mv a b)
        else abLoop f false a (min b (f mv a b)) (min best (f mv a b)) []) ≠ ⊥ ∧
      (if min b (f mv a b) ≤ a then min best (f mv a b)
        else abLoop f false a (min b (f mv a b)) (min best (f mv a b)) []) ≠ ⊤
    by_cases hc : min b (f mv a b) ≤ a
    · rw [if_pos hc]; exact ⟨h1, h2⟩
    · rw [if_neg hc]; exact ⟨h1, h2⟩
  | cons mv2 ms2 ih =>
    intro mv a b best hbest
    have h1 : min best (f mv a b) ≠ ⊥ := min_ne_bot hbest (hf mv a b).1
    have h2 : min best (f mv a b) ≠ ⊤ := min_ne_top_right (hf mv a b).2
    show (if min b (f mv a b) ≤ a then min best (f mv a b)
        else abLoop f false a (min b (f mv a b)) (min best (f mv a b)) (mv2 :: ms2)) ≠ ⊥ ∧
      (if min b (f mv a b) ≤ a then min best (f mv a b)
        else abLoop f false a (min b (f mv a b)) (min best (f mv a b)) (mv2 :: ms2)) ≠ ⊤
    by_cases hc : min b (f mv a b) ≤ a
    · rw [if_pos hc]; exact ⟨h1, h2⟩
    · rw [if_neg hc]
      exact ih mv2 a (min b (f mv a b)) (min best (f mv a b)) h1

lemma minimax_ne (o : Oracle P M)
    (H : ∀ p, o.legal_moves p = [] → o.is_game_over p = true) :
    ∀ (d : Nat) (pos : P) (a b : XInt) (maxi : Bool),
      minimax o d pos a b maxi ≠ ⊥ ∧ minimax o d pos a b maxi ≠ ⊤ := by
  intro d
  induction d with
  | zero => intro pos a b maxi; exact ⟨XInt.fin_ne_bot _, XInt.fin_ne_top _⟩
  | succ d ih =>
    intro pos a b maxi
    by_cases hover : o.is_game_over pos = true
    · have h1 : minimax o (d + 1) pos a b maxi = XInt.fin (evaluate_board o pos) := by
        show (if o.is_game_over pos then _ else _) = _
        rw [if_pos hover]
      rw [h1]
      exact ⟨XInt.fin_ne_bot _, XInt.fin_ne_top _⟩
    · have h1 : minimax o (d + 1) pos a b maxi =
          abLoop (fun mv a' b' => minimax o d (o.push pos mv) a' b' (!maxi)) maxi
            a b (if maxi then ⊥ else ⊤) (o.legal_moves pos) := by
        show (if o.is_game_over pos then _ else _) = _
        rw [if_neg hover]
      obtain ⟨mv, ms, hms⟩ : ∃ mv ms, o.legal_moves pos = mv :: ms := by
        cases hlm : o.legal_moves pos with
        | nil => exact absurd (H pos hlm) hover
        | cons x xs => exact ⟨x, xs, rfl⟩
      rw [h1, hms]
      cases maxi
      · exact abLoop_false_ne _ (fun mv' a' b' => ih (o.push pos mv') a' b' true)
          ms mv a b ⊤ (by decide)
      · exact abLoop_true_ne _ (fun mv' a' b' => ih (o.push pos mv') a' b' false)
          ms mv a b ⊥ (by decide)

lemma gbmLoop_isSome (o : Oracle P M) (board : P) (depth : Nat) :
    ∀ (l : List M) (mv : M) (bv : XInt),
      (gbmLoop o board depth (some mv) bv l).isSome = true := by
  intro l
  induction l with
  | nil => intro mv bv; rfl
  | cons mv2 ms ih =>
    intro mv bv
    simp only [gbmLoop]
    split
    · exact ih _ _
    · exact ih _ _

lemma gbmLoop_mem (o : Oracle P M) (board : P) (depth : Nat) :
    ∀ (l : List M) (bm : Option M) (bv : XInt) (mv' : M),
      gbmLoop o board depth bm bv l = some mv' → bm = some mv' ∨ mv' ∈ l := by
  intro l
  induction l with
  | nil => intro bm bv mv' h; exact Or.inl h
  | cons mv ms ih =>
    intro bm bv mv' h
    simp only [gbmLoop] at h
    revert h
    split
    · intro h
      rcases ih _ _ _ h with h1 | h1
      · rw [Option.some_inj.mp h1]
        exact Or.inr (List.mem_cons_self mv' ms)
      · exact Or.inr (List.mem_cons_of_mem mv h1)
    · intro h
      rcases ih _ _ _ h with h1 | h1
      · exact Or.inl h1
      · exact Or.inr (List.mem_cons_of_mem mv h1)

lemma get_best_move_isSome (o : Oracle P M)
    (H : ∀ p, o.legal_moves p = [] → o.is_game_over p = true)
    (pos : P) (d : Nat) (mv : M) (ms : List M) (hlm : o.legal_moves pos = mv :: ms) :
    (get_best_move o pos d).isSome = true := by
  have hfin := minimax_ne o H (d - 1) (o.push pos mv) ⊥ ⊤ (!(o.turn (o.push pos mv)))
  show (gbmLoop o pos d none (if o.turn pos then ⊥ else ⊤) (o.legal_moves pos)).isSome = true
  rw [hlm]
  simp only [gbmLoop]
  cases hturn : o.turn pos
  · rw [if_pos (Or.inr ⟨rfl, lt_top_iff_ne_top.mpr hfin.2⟩)]
    exact gbmLoop_isSome o pos d ms mv _
  · rw [if_pos (Or.inl ⟨rfl, bot_lt_iff_ne_bot.mpr hfin.1⟩)]
    exact gbmLoop_isSome o pos d ms mv _

lemma evaluate_board_sum (o : Oracle P M) (board : P) :
    evaluate_board o board =
      ∑ pt ∈ Finset.Icc 1 6, ((o.pieces board pt true : ℤ) - (o.pieces board pt false : ℤ)) := by
  have hr : List.range' 1 6 = [1, 2, 3, 4, 5, 6] := rfl
  have hIcc : Finset.Icc (1 : ℕ) 6 = {1, 2, 3, 4, 5, 6} := by decide
  rw [hIcc]
  show (List.range' 1 6).foldl _ 0 = _
  rw [hr]
  simp only [List.foldl]
  rw [Finset.sum_insert (by decide), Finset.sum_insert (by decide), Finset.sum_insert (by decide),
    Finset.sum_insert (by decide), Finset.sum_insert (by decide), Finset.sum_singleton]
  ring

lemma OracleA_H : ∀ p, OracleA.legal_moves p = [] → OracleA.is_game_over p = true := by
  intro p hp
  by_cases h : p ≤ 2
  · exfalso
    rw [show OracleA.legal_moves p = if p ≤ 2 then [1, 2] else [] from rfl, if_pos h] at hp
    exact absurd hp (by decide)
  · show decide (3 ≤ p) = true
    rw [decide_eq_true_iff]
    omega

/-- C1: the claim that `get_best_move` calls `search` with the maximizing
flag flipped relative to the root's side to move is false of the code: on
line 71 `not board.turn` is evaluated after `board.push(move)`, so the flag
passed down equals the root's own side to move. On the concrete oracle
`OracleA` (White to move at the root, replies worth {0, 10} after move 1
and {4, 5} after move 2) the code assumes a cooperating opponent and picks
move 1, while the spec-conformant flipped-flag selector picks move 2; the
flag actually passed for move 1 is `true` although the root has White
(`turn = true`), where the claim demands `false`. -/
theorem C1_flag_divergence :
    get_best_move OracleA 0 2 = some 1 ∧
    get_best_move_specFlag OracleA 0 2 = some 2 ∧
    (!(OracleA.turn (OracleA.push 0 1))) = true ∧
    (!(OracleA.turn 0)) = false := by
  exact ⟨by decide, by decide, by decide, by decide⟩

/-- C2: for every oracle, position, depth and maximizing flag, `minimax`
run with the full window (alpha = -infinity, beta = +infinity) returns
exactly the value of the unpruned exhaustive minimax `minimax_noprune` over
the same tree: the alpha-beta cutoff never changes the returned value. -/
theorem C2_pruning_equivalence (o : Oracle P M) (d : Nat) (pos : P) (maxi : Bool) :
    minimax o d pos ⊥ ⊤ maxi = minimax_noprune o d pos maxi :=
  minimax_full_window o d pos maxi

/-- C3: `evaluate_board` equals the sum over the six piece kinds 1..6 of
(White count minus Black count), each piece with unit weight 1 and no other
terms, and its value embedded into the score domain is finite (never the
-infinity or +infinity element) for every position, terminal or not. As a
Lean function of the oracle and the position it is deterministic and cannot
mutate its argument. -/
theorem C3_evaluate_material_sum (o : Oracle P M) (board : P) :
    evaluate_board o board =
      ∑ pt ∈ Finset.Icc 1 6, ((o.pieces board pt true : ℤ) - (o.pieces board pt false : ℤ)) ∧
    XInt.fin (evaluate_board o board) ≠ ⊥ ∧ XInt.fin (evaluate_board o board) ≠ ⊤ :=
  ⟨evaluate_board_sum o board, XInt.fin_ne_bot _, XInt.fin_ne_top _⟩

/-- C4: at depth 0, `minimax` with the full window returns
`evaluate_board` of the position, for either maximizing flag. -/
theorem C4_zero_depth_base (o : Oracle P M) (pos : P) (maxi : Bool) :
    minimax o 0 pos ⊥ ⊤ maxi = XInt.fin (evaluate_board o pos) := rfl

/-- C5: on a position the oracle reports as game over, `minimax` returns
`evaluate_board` of that exact position for every remaining depth, window
and maximizing flag — a checkmate is scored purely by material, exactly as
a depth-exhausted node — and the stateful run returns with the board state
untouched, confirming no move is applied. -/
theorem C5_game_over_terminal (o : Oracle P M) (pos : P)
    (h : o.is_game_over pos = true) (d : Nat) (a b : XInt) (maxi : Bool) (st : List P) :
    minimax o d pos a b maxi = XInt.fin (evaluate_board o pos) ∧
    minimaxS o d (pos, st) a b maxi = (XInt.fin (evaluate_board o pos), (pos, st)) := by
  cases d with
  | zero => exact ⟨rfl, rfl⟩
  | succ d =>
    constructor
    · show (if o.is_game_over pos then _ else _) = _
      rw [if_pos h]
    · show (if o.is_game_over (pos, st).1 then _ else _) = _
      rw [if_pos h]

/-- Witness for C5 on the concrete oracle `OracleA` at its terminal
position 3. -/
theorem C5_game_over_terminal_witness :
    minimax OracleA 2 3 ⊥ ⊤ true = XInt.fin (evaluate_board OracleA 3) ∧
    minimaxS OracleA 2 (3, []) ⊥ ⊤ true = (XInt.fin (evaluate_board OracleA 3), (3, [])) :=
  C5_game_over_terminal OracleA 3 rfl 2 ⊥ ⊤ true []

/-- C6: the stateful search and the stateful root selector hand back the
board exactly as they received it (same current position and same undo
stack, hence same piece placement, side to move and legal moves), for every
position, depth, window and flag — every push is matched by a pop on every
exit path, including the early pruning return. -/
theorem C6_state_restoration (o : Oracle P M) :
    (∀ (d : Nat) (s : BState P) (a b : XInt) (maxi : Bool),
      (minimaxS o d s a b maxi).2 = s) ∧
    (∀ (s : BState P) (d : Nat), (get_best_moveS o s d).2 = s) :=
  ⟨fun d s a b maxi => by rw [minimaxS_eq], fun s d => by rw [get_best_moveS_eq]⟩

/-- C7: under the chess oracle's guarantee that a position with no legal
moves is game over, `get_best_move` returns `none` exactly when the root
has no legal moves, and any move it returns is one of the root's legal
moves; in the no-move case the result is the ordinary value `none`, not an
error. -/
theorem C7_no_move_result (o : Oracle P M)
    (H : ∀ p, o.legal_moves p = [] → o.is_game_over p = true) (pos : P) (d : Nat) :
    (get_best_move o pos d = none ↔ o.legal_moves pos = []) ∧
    (∀ mv, get_best_move o pos d = some mv → mv ∈ o.legal_moves pos) := by
  constructor
  · constructor
    · intro h
      by_contra hne
      obtain ⟨mv, ms, hms⟩ : ∃ mv ms, o.legal_moves pos = mv :: ms := by
        cases hlm : o.legal_moves pos with
        | nil => exact absurd hlm hne
        | cons x xs => exact ⟨x, xs, rfl⟩
      have hs := get_best_move_isSome o H pos d mv ms hms
      rw [h] at hs
      exact Bool.false_ne_true hs
    · intro h
      show gbmLoop o pos d none _ (o.legal_moves pos) = none
      rw [h]
      rfl
  · intro mv h
    rcases gbmLoop_mem o pos d (o.legal_moves pos) none _ mv h with h1 | h1
    · exact Option.noConfusion h1
    · exact h1

/-- Witness for C7 on the concrete oracle `OracleA`: position 3 has no
legal moves and the selector returns `none`; position 0 has moves and every
returned move is legal. -/
theorem C7_no_move_result_witness :
    ((get_best_move OracleA 3 1 = none ↔ OracleA.legal_moves 3 = []) ∧
      (∀ mv, get_best_move OracleA 3 1 = some mv → mv ∈ OracleA.legal_moves 3)) ∧
    get_best_move OracleA 3 1 = none :=
  ⟨C7_no_move_result OracleA OracleA_H 3 1,
    (C7_no_move_result OracleA OracleA_H 3 1).1.mpr rfl⟩

/-- C8: inside the search loop, after a child is scored the maximizing
branch updates alpha to `max alpha score` and the minimizing branch updates
beta to `min beta score`; when after this update `beta <= alpha` holds, the
loop returns the running best (`max best score`, resp. `min best score`)
immediately — the result is independent of whatever sibling moves remain —
and otherwise it continues with the updated window and running best. The
returned value at a cutoff is the running best itself, not alpha or beta
(fail-soft). -/
theorem C8_cutoff_fail_soft (f : M → XInt → XInt → XInt) (a b best : XInt) (mv : M) :
    (∀ ms : List M, b ≤ max a (f mv a b) →
      abLoop f true a b best (mv :: ms) = max best (f mv a b)) ∧
    (∀ ms : List M, ¬b ≤ max a (f mv a b) →
      abLoop f true a b best (mv :: ms) =
        abLoop f true (max a (f mv a b)) b (max best (f mv a b)) ms) ∧
    (∀ ms : List M, min b (f mv a b) ≤ a →
      abLoop f false a b best (mv :: ms) = min best (f mv a b)) ∧
    (∀ ms : List M, ¬min b (f mv a b) ≤ a →
      abLoop f false a b best (mv :: ms) =
        abLoop f false a (min b (f mv a b)) (min best (f mv a b)) ms) := by
  refine ⟨fun ms hc => ?_, fun ms hc => ?_, fun ms hc => ?_, fun ms hc => ?_⟩
  · show (if b ≤ max a (f mv a b) then _ else _) = _
    rw [if_pos hc]
  · show (if b ≤ max a (f mv a b) then _ else _) = _
    rw [if_neg hc]
  · show (if min b (f mv a b) ≤ a then _ else _) = _
    rw [if_pos hc]
  · show (if min b (f mv a b) ≤ a then _ else _) = _
    rw [if_neg hc]

/-- Witness for C8: a concrete cutoff in which the child scores 7 against
the window (alpha, beta) = (0, 5); the loop stops regardless of the
remaining sibling and returns the running best 7 — strictly above beta and
different from alpha, exhibiting the fail-soft return. -/
theorem C8_cutoff_fail_soft_witness :
    abLoop (fun (_ : Nat) (_ : XInt) (_ : XInt) => XInt.fin 7) true
      (XInt.fin 0) (XInt.fin 5) ⊥ [0, 1] = max ⊥ (XInt.fin 7) :=
  (C8_cutoff_fail_soft (fun _ _ _ => XInt.fin 7) (XInt.fin 0) (XInt.fin 5) ⊥ 0).1 [1] (by decide)

/-- C9: under the chess oracle's guarantee that a position with no legal
moves is game over, `minimax` always returns a finite score — never the
-infinity or +infinity used to initialize the running best — and hence at
the root the first scored move always replaces the infinite initial best
value, so `get_best_move` returns a move whenever one exists. -/
theorem C9_search_finite (o : Oracle P M)
    (H : ∀ p, o.legal_moves p = [] → o.is_game_over p = true) :
    (∀ (d : Nat) (pos : P) (a b : XInt) (maxi : Bool),
      ∃ z : ℤ, minimax o d pos a b maxi = XInt.fin z) ∧
    (∀ (pos : P) (d : Nat) (mv : M) (ms : List M), o.legal_moves pos = mv :: ms →
      (get_best_move o pos d).isSome = true) := by
  constructor
  · intro d pos a b maxi
    have h := minimax_ne o H d pos a b maxi
    exact XInt.exists_fin _ h.1 h.2
  · intro pos d mv ms hms
    exact get_best_move_isSome o H pos d mv ms hms

/-- Witness for C9 on the concrete oracle `OracleA`. -/
theorem C9_search_finite_witness :
    (∃ z : ℤ, minimax OracleA 2 0 ⊥ ⊤ true = XInt.fin z) ∧
    (get_best_move OracleA 0 2).isSome = true :=
  ⟨(C9_search_finite OracleA OracleA_H).1 2 0 ⊥ ⊤ true,
    (C9_search_finite OracleA OracleA_H).2 0 2 1 [2] rfl⟩

/-- C10: the recursion of `minimax` terminates for every depth d, reaching
an answer within any fuel bound exceeding d (each recursive call decreases
depth by exactly one and depth 0 is a base case), and consequently
`get_best_move` terminates for every depth d >= 1. -/
theorem C10_fuel_termination (o : Oracle P M) :
    (∀ (d fuel : Nat), d < fuel → ∀ (pos : P) (a b : XInt) (maxi : Bool),
      minimaxFuel o fuel d pos a b maxi = some (minimax o d pos a b maxi)) ∧
    (∀ (d fuel : Nat), 1 ≤ d → d ≤ fuel → ∀ board : P,
      get_best_moveFuel o board fuel d = some (get_best_move o board d)) := by
  constructor
  · intro d fuel hd pos a b maxi
    exact minimaxFuel_eq o fuel d hd pos a b maxi
  · intro d fuel h1 h2 board
    exact get_best_moveFuel_eq o board fuel d (by omega)

/-- Witness for C10 on the concrete oracle `OracleA` with depth 2 and
fuel 3. -/
theorem C10_fuel_termination_witness :
    minimaxFuel OracleA 3 2 0 ⊥ ⊤ true = some (minimax OracleA 2 0 ⊥ ⊤ true) ∧
    get_best_moveFuel OracleA 0 3 2 = some (get_best_move OracleA 0 2) :=
  ⟨(C10_fuel_termination OracleA).1 2 3 (by decide) 0 ⊥ ⊤ true,
    (C10_fuel_termination OracleA).2 2 3 (by decide) (by decide) 0⟩

end Chess
